import Mathlib

/-!
# Verification of the `@regraf/i18n` translation engine

A shallow embedding of the repository's source (`src/lib/Language.ts`,
`src/lib/LanguageController.ts`) in Lean 4, together with theorems settling
the specification's claims about it.

Modelling conventions:
* The host language's numbers are modelled by `JsNum`: an integer payload for
  finite values plus the distinguished values `Infinity`, `-Infinity` and
  `NaN`.  (Non-integer finite floats are outside the model; every claim about
  counts quantifies over integers.)
* The host `%` operator on numbers is a truncated remainder (the sign follows
  the dividend); it is modelled by `jsRem`.
* Records (`Record<string, string>`, placeholder mappings, the cache) are
  modelled as association lists with first-match lookup.
* Fallible code (property access on `undefined`/`null`) is modelled with
  `Except Unit`; a thrown `TypeError` is `.error ()`.
-/

namespace I18n

/-- A host-language number: a finite integer, `Infinity`, `-Infinity` or
`NaN`.  Finite values are restricted to integers in this model. -/
inductive JsNum where
  | fin (n : Int)
  | inf
  | negInf
  | nan
  deriving DecidableEq, Repr

/-- The host language's `%` on integers: a truncated remainder, whose sign
follows the dividend (`-1 % 10 = -1`, `-10 % 10 = 0`). -/
def jsRem (a b : Int) : Int :=
  if 0 ≤ a then a % b else -((-a) % b)

/-- `count % 10` at the `JsNum` level: any non-finite operand yields `NaN`. -/
def jsMod10 : JsNum → JsNum
  | .fin n => .fin (jsRem n 10)
  | _ => .nan

/-- Embeds `Language.getCountSuffix` (src/lib/Language.ts:23-38): the two
special cases `count === 0` and `count === 11` are checked first, then the
`switch` on `count % 10` with cases `0`, `1`, `2|3|4` and a default.  A
non-finite count falls through every `===` comparison and every `switch`
case (its remainder is `NaN`), landing in the default branch. -/
def getCountSuffix (count : JsNum) : String :=
  if count = .fin 0 then ".zero"
  else if count = .fin 11 then ".many"
  else
    let r := jsMod10 count
    if r = .fin 0 then ".many"
    else if r = .fin 1 then ".one"
    else if r = .fin 2 ∨ r = .fin 3 ∨ r = .fin 4 then ".few"
    else ".many"

/-- The suffix-selection decision procedure exactly as the spec words it
(§4.1 "Concretely the decision order is ..."), over integer counts; `mod`
is read as the source language's truncated remainder. -/
def suffixForSpec (count : Int) : String :=
  if count = 0 then ".zero"
  else if count = 11 then ".many"
  else if jsRem count 10 = 0 then ".many"
  else if jsRem count 10 = 1 then ".one"
  else if jsRem count 10 = 2 ∨ jsRem count 10 = 3 ∨ jsRem count 10 = 4 then ".few"
  else ".many"

/-- A placeholder value from the mapping form of `t`'s second parameter,
typed `string | number | null` in the source. -/
inductive JsVal where
  | vstr (s : String)
  | vnum (n : JsNum)
  | vnull
  deriving DecidableEq, Repr

/-- The two shapes of `t`'s `placeholders` parameter: a positional value
sequence (`string[]`) or a named mapping (`Record<string, ...>`); the source
dispatches on `Array.isArray`. -/
inductive PlaceholderSet where
  | positional (vals : List String)
  | named (entries : List (String × JsVal))
  deriving DecidableEq, Repr

/-- Property read on a record (`m[k]`): first matching key, `none` for the
`undefined` of an absent property. -/
def findRecord {α : Type} : List (String × α) → String → Option α
  | [], _ => none
  | (k', v) :: rest, k => if k' = k then some v else findRecord rest k

/-- Property write on a record (`m[k] = v`): overwrite in place, append when
the key is absent. -/
def recordSet {α : Type} : List (String × α) → String → α → List (String × α)
  | [], k, v => [(k, v)]
  | (k', v') :: rest, k, v => if k' = k then (k, v) :: rest else (k', v') :: recordSet rest k v

/-- Models the host `Number(string)` coercion on the fragment the program
exercises: the empty string coerces to `0`, the `Infinity` forms (optionally
signed) to the infinities, optionally signed digit strings to integers, and
everything else to `NaN`.  (Fractional, exponent, hex and whitespace-padded
literals are outside this model.) -/
def parseJsNumber (s : String) : JsNum :=
  match s.data with
  | [] => .fin 0
  | cs =>
    let signNeg : Bool := match cs with | '-' :: _ => true | _ => false
    let body : List Char := match cs with | '-' :: t => t | '+' :: t => t | t => t
    if body = "Infinity".data then (if signNeg then .negInf else .inf)
    else if body ≠ [] ∧ body.all Char.isDigit then
      let n : Nat := body.foldl (fun acc c => acc * 10 + (c.toNat - 48)) 0
      .fin (if signNeg then -(n : Int) else (n : Int))
    else .nan

/-- Models `Number(v)` on a placeholder value: numbers pass through, `null`
coerces to `0`, strings are parsed. -/
def jsToNumber : JsVal → JsNum
  | .vnum n => n
  | .vnull => .fin 0
  | .vstr s => parseJsNumber s

/-- Models `Number(placeholders.count)` where the property read may give
`undefined` (absent key): `Number(undefined)` is `NaN`. -/
def jsToNumberOpt : Option JsVal → JsNum
  | none => .nan
  | some v => jsToNumber v

/-- Models `String(n)` for a number. -/
def JsNum.toStr : JsNum → String
  | .fin n => toString n
  | .inf => "Infinity"
  | .negInf => "-Infinity"
  | .nan => "NaN"

/-- Models `String(v)` for a placeholder value; `String(null)` is the literal
text `"null"`. -/
def jsValToString : JsVal → String
  | .vstr s => s
  | .vnum n => n.toStr
  | .vnull => "null"

/-- The positional marker `"%s"` of `replacePlaceholders`. -/
def marker : List Char := ['%', 's']

/-- Models `data.replace(pat, rep)` with a string pattern: replace the first
occurrence of `pat`, leave the string unchanged when `pat` does not occur.
(The host's special `$`-sequences in the replacement string are outside the
model; theorems that quantify over replacement values exclude `$`.) -/
def replaceFirstL (pat rep : List Char) : List Char → List Char
  | [] => []
  | c :: rest =>
    if pat.isPrefixOf (c :: rest) then rep ++ (c :: rest).drop pat.length
    else c :: replaceFirstL pat rep rest

/-- Fuel-driven worker for `replaceAllL`; the fuel is the string length, so
it never runs out. -/
def replaceAllAux (pat rep : List Char) : Nat → List Char → List Char
  | _, [] => []
  | 0, s => s
  | fuel + 1, c :: rest =>
    if pat ≠ [] ∧ pat.isPrefixOf (c :: rest) then
      rep ++ replaceAllAux pat rep fuel ((c :: rest).drop pat.length)
    else
      c :: replaceAllAux pat rep fuel rest

/-- Models `data.split(pat).join(rep)`: replace every leftmost
non-overlapping occurrence of `pat` by `rep`. -/
def replaceAllL (pat rep s : List Char) : List Char :=
  replaceAllAux pat rep s.length s

/-- The positional loop of `replacePlaceholders`
(src/lib/Language.ts:46-49): for each value in order, replace the first
occurrence of `"%s"` in the current string. -/
def positionalFold (vals : List String) (s : List Char) : List Char :=
  vals.foldl (fun acc v => replaceFirstL marker v.data acc) s

/-- The named loop of `replacePlaceholders` (src/lib/Language.ts:50-54): for
each key in order, `data.split("\x7b\x7b" + key + "\x7d\x7d").join(String(value))`. -/
def namedFold (entries : List (String × JsVal)) (s : List Char) : List Char :=
  entries.foldl
    (fun acc kv => replaceAllL ("\x7b\x7b" ++ kv.1 ++ "\x7d\x7d").data (jsValToString kv.2).data acc) s

/-- Embeds `Language.replacePlaceholders` (src/lib/Language.ts:44-57).  The
`data` argument is `Option String` because `this.data[path]` is `undefined`
for an absent path.  With a non-empty placeholder set and an `undefined`
template, the first loop iteration calls `.replace`/`.split` on `undefined`
and throws a `TypeError`, modelled as `.error ()`; with an empty placeholder
set no loop body runs and the `undefined` template is returned unchanged. -/
def replacePlaceholders (data : Option String) (ph : PlaceholderSet) : Except Unit (Option String) :=
  match ph with
  | .positional vals =>
    match vals, data with
    | [], _ => .ok data
    | _ :: _, none => .error ()
    | _ :: _, some s => .ok (some ⟨positionalFold vals s.data⟩)
  | .named entries =>
    match entries, data with
    | [], _ => .ok data
    | _ :: _, none => .error ()
    | _ :: _, some s => .ok (some ⟨namedFold entries s.data⟩)

/-- Embeds the `Language` class state (src/lib/Language.ts:7-13).  `data` is
an `Option` because the middleware's fallback path constructs a `Language`
with whatever the cache returned, which can be `null`. -/
structure Language where
  languageCode : String
  data : Option (List (String × String))
  deriving DecidableEq, Repr

/-- The pluralization guard of `Language.t` (src/lib/Language.ts:16-19): on
a named mapping whose `count` coerces to a non-`NaN` number, coerce the
stored `count` in place and append `getCountSuffix` to the path; positional
sequences and `NaN` coercions leave both untouched. -/
def tEffective (path : String) (ph : PlaceholderSet) : String × PlaceholderSet :=
  match ph with
  | .positional _ => (path, ph)
  | .named entries =>
    let n := jsToNumberOpt (findRecord entries "count")
    if n = .nan then (path, ph)
    else (path ++ getCountSuffix n, .named (recordSet entries "count" (.vnum n)))

/-- Embeds `Language.t` (src/lib/Language.ts:15-21).  Returns the render
result together with the placeholder set after the call, since the source
mutates the caller's mapping.  Accessing `this.data[path]` on a `null`
table throws, modelled as `.error ()`. -/
def Language.t (l : Language) (path : String) (ph : PlaceholderSet) :
    Except Unit (Option String) × PlaceholderSet :=
  let pp := tEffective path ph
  match l.data with
  | none => (.error (), pp.2)
  | some tbl => (replacePlaceholders (findRecord tbl pp.1) pp.2, pp.2)

deriving instance DecidableEq for Except

/-- Positional substitution exactly as the spec words it: scan the template
left-to-right; each occurrence of the marker `"%s"` is replaced by the next
unused value, in order; when the values run out, the remaining markers are
left unreplaced.  (This is the claim-side definition, to be compared with
the source-side `positionalFold`.) -/
def substPositionalSpec : List String → List Char → List Char
  | _, [] => []
  | [], s => s
  | _ :: _, c :: [] => c :: []
  | v :: vs, c :: c2 :: rest =>
    if c = '%' ∧ c2 = 's' then v.data ++ substPositionalSpec vs rest
    else c :: substPositionalSpec (v :: vs) (c2 :: rest)

/-- A positional value that cannot create, complete or destroy a marker
occurrence when substituted: non-empty and free of the marker's characters
(and of `$`, whose replacement-string sequences the host treats
specially). -/
def cleanValue (v : String) : Prop :=
  v.data ≠ [] ∧ '%' ∉ v.data ∧ 's' ∉ v.data ∧ '$' ∉ v.data

instance (v : String) : Decidable (cleanValue v) := by
  unfold cleanValue
  infer_instance

/-- The candidate normalization of the middleware
(src/unnamed/part_000:71-72): a resolver may return one identifier or a
list; a single identifier becomes a one-element list. -/
def normalizeLanguages : Sum String (List String) → List String
  | .inl s => [s]
  | .inr l => l

/-- Embeds the candidate loop and fallback of `LanguageController.middleware`
(src/unnamed/part_000:73-81).  The store models `await this.cache.get`: its
`none` is a falsy result (`null`/`undefined`); a present table — even an
empty one — is `some`.  The first candidate whose lookup is not falsy is
bound; otherwise the fallback identifier is bound with whatever the store
returns for it. -/
def middlewareBind (store : String → Option (List (String × String))) (fallback : String) :
    List String → Language
  | [] => { languageCode := fallback, data := store fallback }
  | c :: rest =>
    match store c with
    | none => middlewareBind store fallback rest
    | some d => { languageCode := c, data := some d }

/-- A file-system tree for `preloadLanguages`: a file (whose parsed JSON
content is abstracted to a translation table) or a directory listing in
traversal order. -/
inductive FsNode where
  | file (content : List (String × String))
  | dir (entries : List (String × FsNode))

/-- Models `folderOrFile.endsWith(".json")`. -/
def endsWithJson (path : String) : Bool :=
  (".json".data).isSuffixOf path.data

/-- The directory recursion of `preloadLanguages`
(src/unnamed/part_000:56-67) over a listing: each entry is visited in order
under the key `path ++ "/" ++ name`; a `.json` file is parsed and stored in
the cache under that full path; other files are skipped; a directory is
recursed into. -/
def preloadList (cache : List (String × List (String × String))) (path : String) :
    List (String × FsNode) → List (String × List (String × String))
  | [] => cache
  | (name, .file content) :: rest =>
    preloadList
      (if endsWithJson (path ++ "/" ++ name) then recordSet cache (path ++ "/" ++ name) content
       else cache) path rest
  | (name, .dir entries) :: rest =>
    preloadList (preloadList cache (path ++ "/" ++ name) entries) path rest

/-- Embeds `LanguageController.preloadLanguages` (src/unnamed/part_000:53-68)
on an existing node (the source's `existsSync` guard makes a missing path a
no-op, which needs no model). -/
def preloadLanguages (cache : List (String × List (String × String))) (path : String) :
    FsNode → List (String × List (String × String))
  | .file content => if endsWithJson path then recordSet cache path content else cache
  | .dir entries => preloadList cache path entries

/-- C1 counterexample: the claim places 12 in the `.many` range, but the
source computes `12 % 10 = 2`, hitting the `.few` case of the switch. -/
theorem C1_counterexample_twelve :
    getCountSuffix (JsNum.fin 12) = ".few" ∧ getCountSuffix (JsNum.fin 12) ≠ ".many" := by
  decide

/-- C1 (amended): the pluralization suffix table over 0..31, with the ranges
corrected at 12, 13, 14 (which the switch on `count % 10` sends to `.few`,
not `.many`): `.zero` at 0; `.many` at 11; `.one` at 1, 21, 31; `.few` at
2, 3, 4, 12, 13, 14, 22, 23, 24; `.many` on 5..10, 15..20 and 25..30. -/
theorem C1_suffix_table :
    getCountSuffix (JsNum.fin 0) = ".zero"
    ∧ getCountSuffix (JsNum.fin 11) = ".many"
    ∧ (getCountSuffix (JsNum.fin 1) = ".one"
       ∧ getCountSuffix (JsNum.fin 21) = ".one"
       ∧ getCountSuffix (JsNum.fin 31) = ".one")
    ∧ (getCountSuffix (JsNum.fin 2) = ".few"
       ∧ getCountSuffix (JsNum.fin 3) = ".few"
       ∧ getCountSuffix (JsNum.fin 4) = ".few"
       ∧ getCountSuffix (JsNum.fin 12) = ".few"
       ∧ getCountSuffix (JsNum.fin 13) = ".few"
       ∧ getCountSuffix (JsNum.fin 14) = ".few"
       ∧ getCountSuffix (JsNum.fin 22) = ".few"
       ∧ getCountSuffix (JsNum.fin 23) = ".few"
       ∧ getCountSuffix (JsNum.fin 24) = ".few")
    ∧ (getCountSuffix (JsNum.fin 5) = ".many"
       ∧ getCountSuffix (JsNum.fin 6) = ".many"
       ∧ getCountSuffix (JsNum.fin 7) = ".many"
       ∧ getCountSuffix (JsNum.fin 8) = ".many"
       ∧ getCountSuffix (JsNum.fin 9) = ".many"
       ∧ getCountSuffix (JsNum.fin 10) = ".many"
       ∧ getCountSuffix (JsNum.fin 15) = ".many"
       ∧ getCountSuffix (JsNum.fin 16) = ".many"
       ∧ getCountSuffix (JsNum.fin 17) = ".many"
       ∧ getCountSuffix (JsNum.fin 18) = ".many"
       ∧ getCountSuffix (JsNum.fin 19) = ".many"
       ∧ getCountSuffix (JsNum.fin 20) = ".many"
       ∧ getCountSuffix (JsNum.fin 25) = ".many"
       ∧ getCountSuffix (JsNum.fin 26) = ".many"
       ∧ getCountSuffix (JsNum.fin 27) = ".many"
       ∧ getCountSuffix (JsNum.fin 28) = ".many"
       ∧ getCountSuffix (JsNum.fin 29) = ".many"
       ∧ getCountSuffix (JsNum.fin 30) = ".many") := by
  decide

/-- C4: for every integer count, `getCountSuffix` follows exactly the claimed
decision order — `count == 0 → .zero`; `count == 11 → .many`; otherwise the
switch on `count % 10` (the source language's truncated remainder) gives
`0 → .many`, `1 → .one`, `2|3|4 → .few` and `.many` for every other
residue. -/
theorem C4_decision_order : ∀ count : Int, getCountSuffix (.fin count) = suffixForSpec count := by
  intro count
  simp only [getCountSuffix, suffixForSpec, jsMod10, JsNum.fin.injEq]

/-- C9: every strictly negative integer count gets the suffix `.many`: a
negative count is neither `0` nor `11`, and its truncated remainder by 10 is
nonpositive, so it hits either the `case 0` branch or the default branch of
the switch, both of which return `.many`. -/
theorem C9_negative_many : ∀ count : Int, count < 0 → getCountSuffix (.fin count) = ".many" := by
  intro count h
  have hrem : jsRem count 10 ≤ 0 := by
    unfold jsRem
    rw [if_neg (by omega)]
    have := Int.emod_nonneg (-count) (by norm_num : (10:Int) ≠ 0)
    omega
  simp only [getCountSuffix, jsMod10, JsNum.fin.injEq]
  rw [if_neg (by omega), if_neg (by omega)]
  by_cases h0 : jsRem count 10 = 0
  · simp [h0]
  · rw [if_neg (by simpa using h0), if_neg (by omega), if_neg (by push_neg; omega)]

/-- C9 witness: the theorem applied at the concrete count `-7`. -/
theorem C9_negative_many_witness : getCountSuffix (.fin (-7)) = ".many" :=
  C9_negative_many (-7) (by decide)

/-- Setting a key always makes it readable with the written value. -/
theorem findRecord_recordSet {α : Type} (m : List (String × α)) (k : String) (v : α) :
    findRecord (recordSet m k v) k = some v := by
  induction m with
  | nil => simp [recordSet, findRecord]
  | cons p rest ih =>
    obtain ⟨k', v'⟩ := p
    by_cases h : k' = k
    · simp [recordSet, h, findRecord]
    · simp [recordSet, h, findRecord, ih]

/-- C2 counterexample: with the path absent from the table and a non-empty
positional placeholder sequence, `Language.t` reaches
`undefined.replace("%s", ...)` and throws a `TypeError` — rendering does
not always degrade gracefully. -/
theorem C2_counterexample_throw :
    (Language.t ⟨"en", some []⟩ "greeting" (.positional ["x"])).1 = Except.error () := by
  decide

/-- C2 (amended): rendering never throws when the looked-up template is
present, whatever the placeholders; with an absent path it returns the
`undefined` template unchanged when the placeholder set is empty, and throws
a `TypeError` as soon as the set is non-empty; `Language.t` therefore cannot
throw whenever the (possibly suffix-rewritten) path is present in a present
table. -/
theorem C2_failure_semantics :
    (∀ (d : String) (ph : PlaceholderSet), replacePlaceholders (some d) ph ≠ Except.error ())
    ∧ replacePlaceholders none (.positional []) = .ok none
    ∧ replacePlaceholders none (.named []) = .ok none
    ∧ (∀ (v : String) (vs : List String), replacePlaceholders none (.positional (v :: vs)) = .error ())
    ∧ (∀ (e : String × JsVal) (es : List (String × JsVal)),
        replacePlaceholders none (.named (e :: es)) = .error ())
    ∧ (∀ (l : Language) (path : String) (ph : PlaceholderSet) (tbl : List (String × String)) (s : String),
        l.data = some tbl → findRecord tbl (tEffective path ph).1 = some s →
        (Language.t l path ph).1 ≠ Except.error ()) := by
  have key : ∀ (d : String) (ph : PlaceholderSet), replacePlaceholders (some d) ph ≠ Except.error () := by
    intro d ph
    cases ph with
    | positional vals => cases vals <;> simp [replacePlaceholders]
    | named entries => cases entries <;> simp [replacePlaceholders]
  refine ⟨key, rfl, rfl, fun v vs => rfl, fun e es => rfl, ?_⟩
  intro l path ph tbl s hdata hfind
  have hres : (Language.t l path ph).1
      = replacePlaceholders (findRecord tbl (tEffective path ph).1) (tEffective path ph).2 := by
    simp [Language.t, hdata]
  rw [hres, hfind]
  exact key s _

/-- C2 witness: the no-throw branch of the theorem at a concrete language,
present path and empty placeholder sequence. -/
theorem C2_failure_semantics_witness :
    (Language.t ⟨"en", some [("greeting", "Hello")]⟩ "greeting" (.positional [])).1
      ≠ Except.error () :=
  C2_failure_semantics.2.2.2.2.2 ⟨"en", some [("greeting", "Hello")]⟩ "greeting"
    (.positional []) [("greeting", "Hello")] "Hello" rfl (by decide)

/-- C7 counterexample: `Infinity` does not parse to a finite number, yet the
guard `!isNaN(Number(count))` passes for it, so the path is rewritten (to
`item.many`) — the suffix is not appended "exactly when" the count is
finite. -/
theorem C7_counterexample_infinity :
    jsToNumber (JsVal.vnum JsNum.inf) = JsNum.inf
    ∧ (tEffective "item" (.named [("count", JsVal.vnum JsNum.inf)])).1 = "item.many"
    ∧ "item.many" ≠ "item" := by
  decide

/-- C7 (amended): `Language.t` rewrites the lookup path exactly when the
placeholders are a named mapping whose `count` coerces to a non-`NaN`
number — finite or infinite — appending `getCountSuffix` of the coerced
count; positional sequences never trigger rewriting. -/
theorem C7_suffix_guard :
    (∀ (path : String) (vals : List String), tEffective path (.positional vals) = (path, .positional vals))
    ∧ (∀ (path : String) (entries : List (String × JsVal)),
        (jsToNumberOpt (findRecord entries "count") = .nan →
          tEffective path (.named entries) = (path, .named entries))
        ∧ (jsToNumberOpt (findRecord entries "count") ≠ .nan →
          (tEffective path (.named entries)).1
            = path ++ getCountSuffix (jsToNumberOpt (findRecord entries "count")))) := by
  refine ⟨fun path vals => rfl, fun path entries => ⟨?_, ?_⟩⟩
  · intro h
    simp [tEffective, h]
  · intro h
    simp [tEffective, h]

/-- C7 witness: a `null` count coerces to `0`, so the path is rewritten with
the `.zero` suffix. -/
theorem C7_suffix_guard_witness :
    (tEffective "item" (.named [("count", JsVal.vnull)])).1
      = "item" ++ getCountSuffix (jsToNumberOpt (findRecord [("count", JsVal.vnull)] "count")) :=
  (C7_suffix_guard.2 "item" [("count", JsVal.vnull)]).2 (by decide)

/-- C8 counterexample: a `count` that is already a number is overwritten
with an equal value, so the caller's mapping IS left unchanged by the
call — the mutation is not always observable. -/
theorem C8_counterexample_numeric_count :
    (Language.t ⟨"en", some []⟩ "item" (.named [("count", JsVal.vnum (JsNum.fin 2))])).2
      = PlaceholderSet.named [("count", JsVal.vnum (JsNum.fin 2))] := by
  decide

/-- C8 (amended): when the count guard passes, `Language.t` overwrites the
mapping's `count` with its numeric coercion in place; the mapping is
observably changed precisely when the original value differs from that
coercion (e.g. a string or `null` count), while an already-numeric count is
overwritten with an equal value. -/
theorem C8_count_overwrite :
    ∀ (l : Language) (path : String) (entries : List (String × JsVal)),
      (jsToNumberOpt (findRecord entries "count") ≠ .nan →
        (Language.t l path (.named entries)).2
          = .named (recordSet entries "count" (.vnum (jsToNumberOpt (findRecord entries "count")))))
      ∧ (∀ v : JsVal, findRecord entries "count" = some v → jsToNumber v ≠ .nan →
          v ≠ .vnum (jsToNumber v) →
          (Language.t l path (.named entries)).2 ≠ .named entries) := by
  intro l path entries
  have hsnd : ∀ ph, (Language.t l path ph).2 = (tEffective path ph).2 := by
    intro ph
    cases hd : l.data <;> simp [Language.t, hd]
  constructor
  · intro h
    rw [hsnd]
    simp [tEffective, h]
  · intro v hv hnan hne
    rw [hsnd]
    have hopt : jsToNumberOpt (findRecord entries "count") = jsToNumber v := by
      simp [jsToNumberOpt, hv]
    have heff : tEffective path (.named entries)
        = (path ++ getCountSuffix (jsToNumber v),
           .named (recordSet entries "count" (.vnum (jsToNumber v)))) := by
      simp [tEffective, hopt, hnan]
    rw [heff]
    intro heq
    have h2 : recordSet entries "count" (JsVal.vnum (jsToNumber v)) = entries := by
      simpa using heq
    have h3 := findRecord_recordSet entries "count" (JsVal.vnum (jsToNumber v))
    rw [h2, hv] at h3
    have h4 : JsVal.vnum (jsToNumber v) = v := by simpa using h3.symm
    exact hne h4.symm

/-- C8 witness: a string count `"5"` is coerced, and the theorem rewrites
the mapping to hold the numeric `5`. -/
theorem C8_count_overwrite_witness :
    (Language.t ⟨"en", some []⟩ "item" (.named [("count", JsVal.vstr "5")])).2
      = .named (recordSet [("count", JsVal.vstr "5")] "count"
          (.vnum (jsToNumberOpt (findRecord [("count", JsVal.vstr "5")] "count")))) :=
  (C8_count_overwrite ⟨"en", some []⟩ "item" [("count", JsVal.vstr "5")]).1 (by decide)

theorem positionalFold_cons (v : String) (vs : List String) (s : List Char) :
    positionalFold (v :: vs) s = positionalFold vs (replaceFirstL marker v.data s) := rfl

theorem positionalFold_nil (s : List Char) : positionalFold [] s = s := rfl

theorem positionalFold_nil_str (vals : List String) : positionalFold vals [] = [] := by
  induction vals with
  | nil => rfl
  | cons v vs ih => rw [positionalFold_cons]; exact ih

theorem substSpec_nil_str (vals : List String) : substPositionalSpec vals [] = [] := by
  cases vals <;> rfl

theorem substSpec_nil_vals (s : List Char) : substPositionalSpec [] s = s := by
  cases s with
  | nil => rfl
  | cons c t => cases t <;> rfl

theorem substSpec_single (v : String) (vs : List String) (c : Char) :
    substPositionalSpec (v :: vs) [c] = [c] := rfl

theorem substSpec_two (v : String) (vs : List String) (c c2 : Char) (rest : List Char) :
    substPositionalSpec (v :: vs) (c :: c2 :: rest)
      = if c = '%' ∧ c2 = 's' then v.data ++ substPositionalSpec vs rest
        else c :: substPositionalSpec (v :: vs) (c2 :: rest) := rfl

theorem marker_isPrefixOf_cons (c : Char) (t : List Char) :
    marker.isPrefixOf (c :: t) = true ↔ c = '%' ∧ t.head? = some 's' := by
  cases t with
  | nil => simp [marker, List.isPrefixOf]
  | cons c2 t' =>
    simp [marker, List.isPrefixOf]
    constructor
    · rintro ⟨h1, h2⟩; exact ⟨h1.symm, h2.symm⟩
    · rintro ⟨h1, h2⟩; exact ⟨h1.symm, h2.symm⟩

/-- A prefix free of the marker's first character is transparent for
first-occurrence replacement. -/
theorem replaceFirstL_append_of_not_percent (r p x : List Char) (hp : '%' ∉ p) :
    replaceFirstL marker r (p ++ x) = p ++ replaceFirstL marker r x := by
  induction p with
  | nil => simp
  | cons c p' ih =>
    have hc : c ≠ '%' := fun h => hp (h ▸ List.mem_cons_self c p')
    have hp' : '%' ∉ p' := fun h => hp (List.mem_cons_of_mem _ h)
    have hpre : ¬ marker.isPrefixOf (c :: (p' ++ x)) = true := by
      rw [marker_isPrefixOf_cons]
      rintro ⟨h1, _⟩; exact hc h1
    rw [List.cons_append, replaceFirstL, if_neg hpre, ih hp']
    rfl

theorem positionalFold_append_of_not_percent (vals : List String) (p x : List Char)
    (hp : '%' ∉ p) : positionalFold vals (p ++ x) = p ++ positionalFold vals x := by
  induction vals generalizing x with
  | nil => rfl
  | cons v vs ih =>
    rw [positionalFold_cons, positionalFold_cons,
      replaceFirstL_append_of_not_percent _ _ _ hp, ih]

/-- Replacement with a clean value cannot make the string start with the
marker's second character. -/
theorem head_not_s_replaceFirstL (v : String) (hv : v.data ≠ []) (hs : 's' ∉ v.data)
    (x : List Char) (hx : x.head? ≠ some 's') :
    (replaceFirstL marker v.data x).head? ≠ some 's' := by
  cases x with
  | nil => simp [replaceFirstL]
  | cons c rest =>
    by_cases h : marker.isPrefixOf (c :: rest) = true
    · rw [replaceFirstL, if_pos h]
      cases hd : v.data with
      | nil => exact absurd hd hv
      | cons a as =>
        simp only [List.cons_append, List.head?_cons]
        intro hcontra
        apply hs
        rw [hd]
        have ha : a = 's' := by simpa using hcontra
        rw [ha]
        exact List.mem_cons_self _ _
    · rw [replaceFirstL, if_neg h]
      simp only [List.head?_cons]
      simpa using hx

/-- A leading `'%'` that is not followed by `'s'` is transparent for the
whole positional fold, provided every value is clean. -/
theorem positionalFold_percent (vals : List String) (hvals : ∀ v ∈ vals, cleanValue v)
    (x : List Char) (hx : x.head? ≠ some 's') :
    positionalFold vals ('%' :: x) = '%' :: positionalFold vals x := by
  induction vals generalizing x with
  | nil => rfl
  | cons v vs ih =>
    have hv := hvals v (List.mem_cons_self _ _)
    have hvs : ∀ w ∈ vs, cleanValue w := fun w hw => hvals w (List.mem_cons_of_mem _ hw)
    have hpre : ¬ marker.isPrefixOf ('%' :: x) = true := by
      rw [marker_isPrefixOf_cons]
      rintro ⟨_, h2⟩; exact hx h2
    rw [positionalFold_cons, replaceFirstL, if_neg hpre, positionalFold_cons]
    rw [ih hvs _ (head_not_s_replaceFirstL v hv.1 hv.2.2.1 x hx)]

/-- Strong induction on the template length: on clean values the source's
iterated first-occurrence replacement equals the single left-to-right
pass. -/
theorem positionalFold_eq_substSpec_aux : ∀ (n : Nat) (s : List Char), s.length ≤ n →
    ∀ vals : List String, (∀ v ∈ vals, cleanValue v) →
    positionalFold vals s = substPositionalSpec vals s := by
  intro n
  induction n with
  | zero =>
    intro s hs vals _
    have hnil : s = [] := List.eq_nil_of_length_eq_zero (Nat.le_zero.mp hs)
    subst hnil
    rw [positionalFold_nil_str, substSpec_nil_str]
  | succ n ih =>
    intro s hs vals hvals
    rcases s with _ | ⟨c, _ | ⟨c2, s2⟩⟩
    · rw [positionalFold_nil_str, substSpec_nil_str]
    · rcases vals with _ | ⟨v, vs⟩
      · rfl
      · by_cases hc : c = '%'
        · subst hc
          rw [positionalFold_percent (v :: vs) hvals [] (by simp)]
          rw [positionalFold_nil_str, substSpec_single]
        · have h1 := positionalFold_append_of_not_percent (v :: vs) [c] []
            (fun h => hc (List.mem_singleton.mp h).symm)
          simp only [List.cons_append, List.nil_append, List.append_nil] at h1
          rw [h1, positionalFold_nil_str, substSpec_single]
    · by_cases hm : c = '%' ∧ c2 = 's'
      · obtain ⟨hc, hc2⟩ := hm
        subst hc; subst hc2
        rcases vals with _ | ⟨v, vs⟩
        · rw [positionalFold_nil, substSpec_nil_vals]
        · have hv := hvals v (List.mem_cons_self _ _)
          have hvs : ∀ w ∈ vs, cleanValue w := fun w hw => hvals w (List.mem_cons_of_mem _ hw)
          have hpre : marker.isPrefixOf ('%' :: 's' :: s2) = true := by
            rw [marker_isPrefixOf_cons]; exact ⟨rfl, rfl⟩
          rw [positionalFold_cons, replaceFirstL, if_pos hpre]
          have hdrop : ('%' :: 's' :: s2).drop marker.length = s2 := rfl
          rw [hdrop]
          rw [positionalFold_append_of_not_percent vs v.data s2 hv.2.1]
          rw [ih s2 (by simp only [List.length_cons] at hs; omega) vs hvs]
          rw [substSpec_two, if_pos ⟨rfl, rfl⟩]
      · have hsubst : substPositionalSpec vals (c :: c2 :: s2)
            = c :: substPositionalSpec vals (c2 :: s2) := by
          rcases vals with _ | ⟨v, vs⟩
          · rw [substSpec_nil_vals, substSpec_nil_vals]
          · rw [substSpec_two, if_neg hm]
        rw [hsubst]
        by_cases hc : c = '%'
        · subst hc
          have hc2 : c2 ≠ 's' := fun h => hm ⟨rfl, h⟩
          rw [positionalFold_percent vals hvals (c2 :: s2) (by simpa using hc2)]
          rw [ih (c2 :: s2) (by simp only [List.length_cons] at hs ⊢; omega) vals hvals]
        · have h1 := positionalFold_append_of_not_percent vals [c] (c2 :: s2)
            (fun h => hc (List.mem_singleton.mp h).symm)
          simp only [List.cons_append, List.nil_append] at h1
          rw [h1, ih (c2 :: s2) (by simp only [List.length_cons] at hs ⊢; omega) vals hvals]

/-- C6 counterexample: with a value that itself contains the marker, the
source's iterated replacement puts the second value at the position of the
first template marker — values are not matched to the template's first,
second, etc. occurrences. -/
theorem C6_counterexample_marker_value :
    positionalFold ["%s", "Bob"] ("%s and %s").data = ("Bob and %s").data
    ∧ substPositionalSpec ["%s", "Bob"] ("%s and %s").data = ("%s and Bob").data
    ∧ ("Bob and %s").data ≠ ("%s and Bob").data := by
  decide

/-- C6 (amended): positional substitution repeatedly replaces the first
occurrence of `"%s"` in the current string with the next value; whenever no
substituted value can create or complete a marker occurrence (each value
non-empty and free of `'%'`, `'s'` and the host-special `'$'`), this equals
replacing the template's marker occurrences in strict left-to-right order,
with exhausted sequences leaving the remaining markers unreplaced and no
error ever raised — in particular the claim's own examples hold. -/
theorem C6_positional_order :
    (∀ (vals : List String) (s : List Char), (∀ v ∈ vals, cleanValue v) →
      positionalFold vals s = substPositionalSpec vals s)
    ∧ replacePlaceholders (some "%s and %s") (.positional ["Alice"]) = .ok (some "Alice and %s")
    ∧ replacePlaceholders (some "%s and %s") (.positional ["Alice", "Bob"])
        = .ok (some "Alice and Bob") := by
  refine ⟨fun vals s h => positionalFold_eq_substSpec_aux s.length s le_rfl vals h, ?_, ?_⟩
  · decide
  · decide

/-- C6 witness: the equivalence applied to a concrete clean value. -/
theorem C6_positional_order_witness :
    positionalFold ["AB"] ("%s!").data = substPositionalSpec ["AB"] ("%s!").data :=
  C6_positional_order.1 ["AB"] ("%s!").data (by decide)

/-- C3 counterexample: an empty table is a truthy value for
`if(!languageData) continue`, so the first candidate is bound with its empty
table instead of being skipped in favour of the next candidate. -/
theorem C3_counterexample_empty_table :
    middlewareBind
        (fun l => if l = "fr" then some [] else if l = "de" then some [("a", "b")] else none)
        "en" ["fr", "de"]
      = ⟨"fr", some []⟩
    ∧ (middlewareBind
        (fun l => if l = "fr" then some [] else if l = "de" then some [("a", "b")] else none)
        "en" ["fr", "de"]).languageCode ≠ "de" := by
  decide

/-- C3 (amended): a candidate is skipped exactly when the Translation Store
returns an absent (falsy) result; any present table — including an empty
one — is bound immediately. -/
theorem C3_falsy_skip :
    ∀ (store : String → Option (List (String × String))) (fallback c : String)
      (rest : List String),
      (store c = none →
        middlewareBind store fallback (c :: rest) = middlewareBind store fallback rest)
      ∧ (∀ d, store c = some d → middlewareBind store fallback (c :: rest) = ⟨c, some d⟩) := by
  intro store fallback c rest
  constructor
  · intro h
    simp [middlewareBind, h]
  · intro d h
    simp [middlewareBind, h]

/-- C3 witness: the skip branch at a store with no data at all. -/
theorem C3_falsy_skip_witness :
    middlewareBind (fun _ => none) "en" ["fr"] = middlewareBind (fun _ => none) "en" [] :=
  (C3_falsy_skip (fun _ => none) "en" "fr" []).1 rfl

/-- C5: resolution always terminates with a bound language whose table is
exactly what the store returns for its identifier, and when every candidate
is absent the configured fallback is bound with whatever the store returns
for it (possibly nothing) — the middleware never fails to produce a
`Language`. -/
theorem C5_always_bound :
    ∀ (store : String → Option (List (String × String))) (fallback : String)
      (resolved : Sum String (List String)),
      ((middlewareBind store fallback (normalizeLanguages resolved)).data
          = store (middlewareBind store fallback (normalizeLanguages resolved)).languageCode)
      ∧ ((∀ c ∈ normalizeLanguages resolved, store c = none) →
          middlewareBind store fallback (normalizeLanguages resolved)
            = ⟨fallback, store fallback⟩) := by
  intro store fallback resolved
  generalize normalizeLanguages resolved = cands
  induction cands with
  | nil => exact ⟨rfl, fun _ => rfl⟩
  | cons c rest ih =>
    cases h : store c with
    | none =>
      have hstep : middlewareBind store fallback (c :: rest)
          = middlewareBind store fallback rest := by
        simp [middlewareBind, h]
      constructor
      · rw [hstep]; exact ih.1
      · intro hall
        rw [hstep]
        exact ih.2 (fun w hw => hall w (List.mem_cons_of_mem _ hw))
    | some d =>
      constructor
      · simp [middlewareBind, h]
      · intro hall
        simp [hall c (List.mem_cons_self _ _)] at h


/-- C5 witness: the fallback branch when no candidate has data. -/
theorem C5_always_bound_witness :
    middlewareBind (fun _ => none) "en" (normalizeLanguages (.inr ["fr"]))
      = ⟨"en", (fun (_ : String) => none) "en"⟩ :=
  (C5_always_bound (fun _ => none) "en" (.inr ["fr"])).2 (fun _ _ => rfl)

theorem findRecord_recordSet_ne {α : Type} (m : List (String × α)) (k' k : String) (v : α)
    (h : k' ≠ k) : findRecord (recordSet m k' v) k = findRecord m k := by
  induction m with
  | nil => simp [recordSet, findRecord, h]
  | cons p rest ih =>
    obtain ⟨k2, v2⟩ := p
    by_cases h2 : k2 = k'
    · simp [recordSet, h2, findRecord, h]
    · simp [recordSet, h2, findRecord, ih]

theorem json_ne_of_endsWith {a k : String} (ha : endsWithJson a = true)
    (hk : endsWithJson k = false) : a ≠ k := by
  intro h
  rw [h, hk] at ha
  exact Bool.false_ne_true ha

/-- Preloading a listing never touches a cache key that does not end in
`".json"`. -/
theorem preloadList_preserve (k : String) (hk : endsWithJson k = false) :
    ∀ (cache : List (String × List (String × String))) (path : String)
      (es : List (String × FsNode)),
      findRecord (preloadList cache path es) k = findRecord cache k := by
  intro cache path es
  induction cache, path, es using preloadList.induct with
  | case1 cache path => simp [preloadList]
  | case2 cache path name content rest ih =>
    simp only [dite_eq_ite] at ih
    rw [preloadList, ih]
    by_cases h : endsWithJson (path ++ "/" ++ name) = true
    · rw [if_pos h, findRecord_recordSet_ne _ _ _ _ (json_ne_of_endsWith h hk)]
    · rw [if_neg h]
  | case3 cache path name entries rest ih1 ih2 =>
    rw [preloadList, ih2, ih1]

/-- C10: preloading stores a parsed table only under the full file-path key
built during recursion (always ending in `".json"`), so it never changes
the cache at a bare language-identifier key; concretely, preloading a
`locales` directory containing `en.json` creates the key
`"locales/en.json"` and a lookup for `"en"` still misses. -/
theorem C10_preload_path_keys :
    (∀ (cache : List (String × List (String × String))) (path : String) (node : FsNode)
        (k : String), endsWithJson k = false →
        findRecord (preloadLanguages cache path node) k = findRecord cache k)
    ∧ preloadLanguages [] "locales" (.dir [("en.json", .file [("greeting", "Hello")])])
        = [("locales/en.json", [("greeting", "Hello")])]
    ∧ findRecord
        (preloadLanguages [] "locales" (.dir [("en.json", .file [("greeting", "Hello")])]))
        "en" = none := by
  have hconc :
      preloadLanguages [] "locales" (.dir [("en.json", .file [("greeting", "Hello")])])
        = [("locales/en.json", [("greeting", "Hello")])] := by
    show preloadList [] "locales" [("en.json", FsNode.file [("greeting", "Hello")])] = _
    simp only [preloadList]
    rw [if_pos (show endsWithJson ("locales" ++ "/" ++ "en.json") = true from by decide)]
    rfl
  refine ⟨?_, hconc, ?_⟩
  · intro cache path node k hk
    cases node with
    | file content =>
      simp only [preloadLanguages]
      by_cases h : endsWithJson path = true
      · rw [if_pos h, findRecord_recordSet_ne _ _ _ _ (json_ne_of_endsWith h hk)]
      · rw [if_neg h]
    | dir entries => exact preloadList_preserve k hk cache path entries
  · rw [hconc]
    decide

/-- C10 witness: the preservation branch at a concrete non-json key. -/
theorem C10_preload_path_keys_witness :
    findRecord (preloadLanguages [] "locales" (.file [("greeting", "Hello")])) "en"
      = findRecord ([] : List (String × List (String × String))) "en" :=
  C10_preload_path_keys.1 [] "locales" (.file [("greeting", "Hello")]) "en" (by decide)

end I18n
